import Mathlib

/-!
Verification development for the Mimi support-ticket aggregator.

The dashboard sources (`dashboard/src/...`) are embedded directly.
The analysis pipeline (consolidator, classification engine, identity
resolver) ships as a separate module whose sources are not in this tree;
those parts are modelled from the specification, as marked on each
definition.
-/

namespace Mimi

/-! ## Dashboard shared filter store

Embedded from the store module inlined with
`dashboard/src/components/PeopleActivity.svelte` (`createFilterStore`,
`hasActiveFilters`, `issueMatchesFilters`).  A JavaScript `Set<string>`
is modelled as a `Finset String`: membership-based, content equality. -/

structure Filters where
  selectedKeywords : Finset String
  selectedIssueTypes : Finset String
  selectedPeople : Finset String
  deriving DecidableEq

def toggleKeyword (f : Filters) (keyword : String) : Filters :=
  if keyword ∈ f.selectedKeywords then
    { f with selectedKeywords := f.selectedKeywords.erase keyword }
  else
    { f with selectedKeywords := insert keyword f.selectedKeywords }

def toggleIssueType (f : Filters) (t : String) : Filters :=
  if t ∈ f.selectedIssueTypes then
    { f with selectedIssueTypes := f.selectedIssueTypes.erase t }
  else
    { f with selectedIssueTypes := insert t f.selectedIssueTypes }

def togglePerson (f : Filters) (person : String) : Filters :=
  if person ∈ f.selectedPeople then
    { f with selectedPeople := f.selectedPeople.erase person }
  else
    { f with selectedPeople := insert person f.selectedPeople }

def hasActiveFilters (f : Filters) : Bool :=
  decide (0 < f.selectedKeywords.card) || decide (0 < f.selectedIssueTypes.card) ||
    decide (0 < f.selectedPeople.card)

/-- An issue as seen by `issueMatchesFilters`: `classification.type`,
`classification.keywords`, and the optional `people` array (names). -/
structure Issue where
  classificationType : String
  classificationKeywords : List String
  people : Option (List String)
  deriving DecidableEq

def issueMatchesFilters (issue : Issue) (currentFilters : Filters) : Bool :=
  if !hasActiveFilters currentFilters then
    true
  else if decide (0 < currentFilters.selectedIssueTypes.card) &&
      !decide (issue.classificationType ∈ currentFilters.selectedIssueTypes) then
    false
  else if decide (0 < currentFilters.selectedKeywords.card) &&
      !issue.classificationKeywords.any (fun kw => decide (kw ∈ currentFilters.selectedKeywords)) then
    false
  else if decide (0 < currentFilters.selectedPeople.card) &&
      !((issue.people.map
          (fun ps => ps.any (fun p => decide (p ∈ currentFilters.selectedPeople)))).getD false) then
    false
  else
    true

/-! ## Keyword co-occurrence matrix

Embedded from `updateChart` in
`dashboard/src/components/KeywordCooccurrence.svelte` (lines 49-74).
Per issue, the keyword list is restricted to the displayed top keywords,
then every index pair `i < j` increments both directions of the matrix.
`pairCount a b kws` is the number of increments cell `(a, b)` receives
from one issue. -/

def pairCount (a b : String) : List String → Nat
  | [] => 0
  | k :: rest =>
      (if k = a then rest.count b else 0) + (if k = b then rest.count a else 0) +
        pairCount a b rest

def cooccurrence (top : List String) (issues : List (List String)) (a b : String) : Nat :=
  (issues.map (fun kws => pairCount a b (kws.filter (fun kw => decide (kw ∈ top))))).sum

/-! ## Consolidator (union-find)

Modelled from the spec: the `gather` module that clusters raw records is
not in this tree.  Spec section 4.2 prescribes an arena of
integer-indexed elements (one per raw record, one per distinct
reference) with `make`/`union`/`find`; after all unions, each connected
component is one ConsolidatedTicket.  The arena is modelled by `Nat`
element indices and the structure's state by the map sending each
element to its canonical root: `ufUnion` relabels the class of `b` to
the class of `a`, exactly the partition semantics of `union(a,b)`
(union-by-size and path compression only affect running time, not which
partition results). -/

def ufUnion (f : Nat → Nat) (a b : Nat) : Nat → Nat :=
  fun x => if f x = f b then f a else f x

def applyEdges (edges : List (Nat × Nat)) (f : Nat → Nat) : Nat → Nat :=
  edges.foldl (fun g e => ufUnion g e.1 e.2) f

/-- Two elements are in the same set when they have the same root. -/
def sameSet (f : Nat → Nat) (x y : Nat) : Prop :=
  f x = f y

/-- Modelled from the spec: a raw record as the consolidator sees it —
its own arena element plus the arena elements of the references
mentioned in its text. -/
structure RawRecordU where
  elem : Nat
  refElems : List Nat
  deriving DecidableEq

def recordEdges (r : RawRecordU) : List (Nat × Nat) :=
  r.refElems.map (fun e => (r.elem, e))

/-- Modelled from the spec: process records in order, unioning each
record's element with every reference element it mentions, starting
from the all-singletons state. -/
def consolidate (recs : List RawRecordU) : Nat → Nat :=
  applyEdges (recs.flatMap recordEdges) id

/-- The cluster of `x` among arena elements `0, ..., n-1`, as a set of
element ids. -/
def component (n : Nat) (f : Nat → Nat) (x : Nat) : Finset Nat :=
  (Finset.range n).filter (fun y => f x = f y)

/-! ## Classification engine

Modelled from the spec: the `analyze` module is not in this tree.  Spec
section 4.3 with the rule-document shape of section 6 and
`CUSTOM_CLASSIFICATION.md`.  Ticket text is represented by its list of
normalized tokens, so "keyword present in the text (case-insensitive,
word-boundary matched)" becomes list membership; the linguistic feature
vector of step 2 enters as its per-category score function, computed
upstream.  The closed category set and the priority tie-break order are
the ones the documentation names. -/

inductive Category
  | outage
  | defect
  | routing_issue
  | enhancement
  | inquiry
  deriving DecidableEq

/-- One rule layer entry for a category: a weight and a keyword list. -/
structure LayerRule where
  weight : ℚ
  keywords : List String
  deriving DecidableEq

/-- Modelled from the spec: base layer, context layer, global overrides,
global exclude list, corrections map (ticket reference to category). -/
structure RuleSet where
  base : List (Category × LayerRule)
  contexts : List (String × List (Category × LayerRule))
  overrides : List (Category × LayerRule)
  alwaysExclude : List String
  corrections : List (String × Category)

def alookup {α β : Type} [DecidableEq α] (k : α) : List (α × β) → Option β
  | [] => none
  | (a, b) :: rest => if a = k then some b else alookup k rest

/-- The ordered list of immutable overlay layers applicable to one
category: base rules, then the matching context layer, then global
overrides. -/
def applicableLayers (rs : RuleSet) (context : String) (cat : Category) : List LayerRule :=
  (alookup cat rs.base).toList ++
    ((alookup context rs.contexts).bind (fun layer => alookup cat layer)).toList ++
    (alookup cat rs.overrides).toList

/-- Query the ordered overlay layers one by one, carrying the best
weight seen so far for the keyword. -/
def mergedWeightFrom (kw : String) : Option ℚ → List LayerRule → Option ℚ
  | acc, [] => acc
  | acc, l :: layers =>
      mergedWeightFrom kw
        (if kw ∈ l.keywords then
          some (match acc with
            | some w => max w l.weight
            | none => l.weight)
        else acc)
        layers

/-- Modelled from the spec: layers are queried in priority order without
mutation; for a keyword defined in several layers the highest weight
wins.  Returns `none` when no applicable layer defines the keyword. -/
def mergedWeight (layers : List LayerRule) (kw : String) : Option ℚ :=
  mergedWeightFrom kw none layers

/-- Keywords gathered for a category from all applicable layers, minus
the global exclude list. -/
def gatherKeywords (rs : RuleSet) (context : String) (cat : Category) : List String :=
  (((applicableLayers rs context cat).flatMap LayerRule.keywords).dedup).filter
    (fun kw => decide (kw ∉ rs.alwaysExclude))

/-- Keyword score of one category: sum, over its gathered keywords that
occur in the text, of the keyword's effective weight. -/
def keywordScore (rs : RuleSet) (context : String) (cat : Category) (tokens : List String) : ℚ :=
  ((gatherKeywords rs context cat).map
    (fun kw =>
      if kw ∈ tokens then (mergedWeight (applicableLayers rs context cat) kw).getD 0 else 0)).sum

/-- Fixed tie-break priority, most urgent first. -/
def categoryPriority : List Category :=
  [Category.outage, Category.defect, Category.routing_issue, Category.enhancement,
    Category.inquiry]

/-- Highest-scoring category; on ties the earlier entry of
`categoryPriority` wins. -/
def pickCategory (score : Category → ℚ) : Category :=
  categoryPriority.foldl (fun best c => if score best < score c then c else best) Category.outage

/-- All gathered keywords (any category) that occur in the text,
deduplicated, minus globally excluded terms. -/
def matchedKeywords (rs : RuleSet) (context : String) (tokens : List String) : List String :=
  ((categoryPriority.flatMap (fun c => gatherKeywords rs context c)).dedup).filter
    (fun kw => decide (kw ∈ tokens))

structure Classification where
  category : Category
  confidence : ℚ
  keywords : List String
  deriving DecidableEq

/-- Modelled from the spec: the fixed low confidence reported for empty
or unparseable text. -/
def lowConfidence : ℚ := 1/5

/-- Modelled from the spec, section 4.3: correction lookup first
(short-circuiting everything else at confidence 0.99), then the
empty-text default, then keyword-plus-linguistic scoring with the
confidence clamped into `[0, 0.99]`. -/
def classify (rs : RuleSet) (context : String) (ticketRef : String) (tokens : List String)
    (featScore : Category → ℚ) : Classification :=
  match alookup ticketRef rs.corrections with
  | some cat => ⟨cat, 99/100, []⟩
  | none =>
      if tokens = [] then ⟨Category.inquiry, lowConfidence, []⟩
      else
        let score := fun c => keywordScore rs context c tokens + featScore c
        let best := pickCategory score
        let total := (categoryPriority.map score).sum
        ⟨best, min (max (score best / total) 0) (99/100), matchedKeywords rs context tokens⟩

/-! ## Identity resolver

Modelled from the spec, section 4.4: the `analyze` module is not in this
tree.  Display names are represented by their normalized token lists and
emails arrive already normalized.  Stage 1 groups identities by email;
stage 2 sorts the email-less identities by (source, source-local id) and
greedily merges each into the best-matching existing node when the
name-similarity (token overlap over the larger token set) reaches the
threshold.  A node's label is the most complete (longest) member name. -/

structure Identity where
  source : String
  sourceId : String
  name : List String
  email : Option String
  deriving DecidableEq

structure PersonNode where
  members : List Identity
  label : List String
  email : Option String
  deriving DecidableEq

/-- The more complete of two display names: the one with more tokens,
keeping the first on ties. -/
def betterName (a b : List String) : List String :=
  if a.length < b.length then b else a

def bestLabel (members : List Identity) : List String :=
  members.foldl (fun acc i => betterName acc i.name) []

/-- Normalized token-overlap name similarity: shared tokens over the
larger token set. -/
def similarity (a b : List String) : ℚ :=
  mkRat (a.dedup.filter (fun t => decide (t ∈ b))).length (max a.dedup.length b.dedup.length)

/-- Lexicographic order on the character lists of two strings. -/
def strLeChars : List Char → List Char → Bool
  | [], _ => true
  | _ :: _, [] => false
  | c :: cs, d :: ds => if c = d then strLeChars cs ds else decide (c.toNat < d.toNat)

def strLe (s t : String) : Bool :=
  strLeChars s.data t.data

def idLe (i j : Identity) : Bool :=
  if i.source = j.source then strLe i.sourceId j.sourceId else strLe i.source j.source

def insertSorted (i : Identity) : List Identity → List Identity
  | [] => [i]
  | j :: rest => if idLe i j then i :: j :: rest else j :: insertSorted i rest

def sortIdentities (ids : List Identity) : List Identity :=
  ids.foldr insertSorted []

/-- Stage-1 node for one normalized email: all identities carrying it. -/
def mkEmailNode (ids : List Identity) (e : String) : PersonNode :=
  let members := ids.filter (fun i => i.email = some e)
  ⟨members, bestLabel members, some e⟩

def addMember (n : PersonNode) (i : Identity) : PersonNode :=
  ⟨n.members ++ [i], betterName n.label i.name, n.email⟩

def mergeAt : List PersonNode → Nat → Identity → List PersonNode
  | [], _, _ => []
  | n :: ns, 0, i => addMember n i :: ns
  | n :: ns, k + 1, i => n :: mergeAt ns k i

/-- Index and similarity of the best-matching node label, earliest on
ties. -/
def bestMatchAux (name : List String) :
    List PersonNode → Nat → Option (Nat × ℚ) → Option (Nat × ℚ)
  | [], _, best => best
  | n :: ns, idx, best =>
      let s := similarity name n.label
      bestMatchAux name ns (idx + 1)
        (match best with
          | none => some (idx, s)
          | some (bi, bs) => if bs < s then some (idx, s) else some (bi, bs))

/-- Greedy stage-2 step: merge the identity into the best-matching node
when its similarity reaches the threshold, else open a new node. -/
def resolveStep (θ : ℚ) (nodes : List PersonNode) (i : Identity) : List PersonNode :=
  match bestMatchAux i.name nodes 0 none with
  | some (bi, bs) =>
      if θ ≤ bs then mergeAt nodes bi i else nodes ++ [⟨[i], i.name, none⟩]
  | none => nodes ++ [⟨[i], i.name, none⟩]

/-- Modelled from the spec: full identity resolution — stage 1 groups by
normalized email, stage 2 greedily places the email-less identities in
stable sorted order. -/
def resolve (θ : ℚ) (ids : List Identity) : List PersonNode :=
  let sorted := sortIdentities ids
  let emails := (sorted.filterMap Identity.email).dedup
  let stage1 := emails.map (mkEmailNode sorted)
  (sorted.filter (fun i => i.email = none)).foldl (resolveStep θ) stage1

/-- A formed PersonNode viewed again as one identity, for re-resolving
the resolver's own output: its label as the display name, its email,
and the first member's (source, source-local id). -/
def nodeIdentity (n : PersonNode) : Identity :=
  ⟨(n.members.headD ⟨"", "", [], none⟩).source,
    (n.members.headD ⟨"", "", [], none⟩).sourceId, n.label, n.email⟩

/-! ## Concrete inputs used to instantiate the theorems below -/

/-- A small rule set with one base rule and one recorded correction. -/
def exRuleSet : RuleSet :=
  ⟨[(Category.outage, ⟨1, [("outage"), ("500 errors")]⟩)], [], [], [],
    [(("PROJ-9"), Category.defect)]⟩

/-- A rule set where the keyword "sev0" is defined by two layers: base
weight 1 and global-override weight 3. -/
def exRuleSet2 : RuleSet :=
  ⟨[(Category.outage, ⟨1, [("sev0")]⟩)], [], [(Category.outage, ⟨3, [("sev0")]⟩)], [], []⟩

/-- Two raw records both mentioning reference element 2. -/
def exRecs : List RawRecordU :=
  [⟨0, [2]⟩, ⟨1, [2]⟩]

/-- The same records in the opposite processing order. -/
def exRecsPerm : List RawRecordU :=
  [⟨1, [2]⟩, ⟨0, [2]⟩]

/-- The default name-similarity threshold of 0.85. -/
def exTheta : ℚ := mkRat 17 20

/-- Three email-less identities: the third name bridges the first two,
dragging the first node's label close to the second node's. -/
def exIdentities : List Identity :=
  [⟨"s", "a1", ["a", "b", "c", "d", "e", "f"], none⟩,
   ⟨"s", "a2", ["b", "c", "d", "e", "f", "g"], none⟩,
   ⟨"s", "a3", ["a", "b", "c", "d", "e", "f", "g"], none⟩]

/-! ## Theorems: dashboard filter store -/

/-- C8: when all three selected sets are empty, `issueMatchesFilters`
returns `true` for every issue, so the dashboard shows everything when
no filter is active. -/
theorem issueMatchesFilters_of_no_active (issue : Issue) (f : Filters)
    (hk : f.selectedKeywords = ∅) (ht : f.selectedIssueTypes = ∅)
    (hp : f.selectedPeople = ∅) :
    issueMatchesFilters issue f = true := by
  have hact : hasActiveFilters f = false := by
    simp [hasActiveFilters, hk, ht, hp]
  simp [issueMatchesFilters, hact]

theorem issueMatchesFilters_of_no_active_witness :
    issueMatchesFilters ⟨"defect", [("login")], some [("ann")]⟩ ⟨∅, ∅, ∅⟩ = true :=
  issueMatchesFilters_of_no_active _ _ rfl rfl rfl

/-- C9: each toggle of the shared filter store is an involution —
toggling the same string twice restores the filter state (as content
equality of the selected sets). -/
theorem toggles_involutive (f : Filters) (x : String) :
    toggleKeyword (toggleKeyword f x) x = f ∧
    toggleIssueType (toggleIssueType f x) x = f ∧
    togglePerson (togglePerson f x) x = f := by
  obtain ⟨k, t, p⟩ := f
  refine ⟨?_, ?_, ?_⟩
  · by_cases hx : x ∈ k <;>
      simp [toggleKeyword, hx, Finset.insert_erase, Finset.erase_insert]
  · by_cases hx : x ∈ t <;>
      simp [toggleIssueType, hx, Finset.insert_erase, Finset.erase_insert]
  · by_cases hx : x ∈ p <;>
      simp [togglePerson, hx, Finset.insert_erase, Finset.erase_insert]

/-- C10: each toggle touches only its own field — the other two selected
sets are returned unchanged. -/
theorem toggles_frame (f : Filters) (x : String) :
    (toggleKeyword f x).selectedIssueTypes = f.selectedIssueTypes ∧
    (toggleKeyword f x).selectedPeople = f.selectedPeople ∧
    (toggleIssueType f x).selectedKeywords = f.selectedKeywords ∧
    (toggleIssueType f x).selectedPeople = f.selectedPeople ∧
    (togglePerson f x).selectedKeywords = f.selectedKeywords ∧
    (togglePerson f x).selectedIssueTypes = f.selectedIssueTypes := by
  refine ⟨?_, ?_, ?_, ?_, ?_, ?_⟩ <;>
    simp only [toggleKeyword, toggleIssueType, togglePerson] <;> split <;> rfl

/-! ## Theorems: keyword co-occurrence matrix -/

theorem pairCount_comm (a b : String) (l : List String) :
    pairCount a b l = pairCount b a l := by
  induction l with
  | nil => rfl
  | cons k rest ih => simp only [pairCount, ih]; omega

theorem count_eq_ite_of_nodup (x : String) (l : List String) (h : l.Nodup) :
    l.count x = if x ∈ l then 1 else 0 := by
  induction l with
  | nil => simp
  | cons k rest ih =>
      obtain ⟨hk, hrest⟩ := List.nodup_cons.mp h
      by_cases hxk : x = k
      · subst hxk
        simp [List.count_cons, List.count_eq_zero_of_not_mem hk]
      · simp [List.count_cons, hxk, ih hrest, Ne.symm hxk]

theorem pairCount_eq_zero (a b : String) (l : List String) (h : a ∉ l ∨ b ∉ l) :
    pairCount a b l = 0 := by
  induction l with
  | nil => rfl
  | cons k rest ih =>
      rcases h with h | h
      · have hka : k ≠ a := fun hk => h (hk ▸ List.mem_cons_self k rest)
        have ha : a ∉ rest := fun hr => h (List.mem_cons_of_mem k hr)
        simp [pairCount, hka, List.count_eq_zero_of_not_mem ha, ih (Or.inl ha)]
      · have hkb : k ≠ b := fun hk => h (hk ▸ List.mem_cons_self k rest)
        have hb : b ∉ rest := fun hr => h (List.mem_cons_of_mem k hr)
        simp [pairCount, hkb, List.count_eq_zero_of_not_mem hb, ih (Or.inr hb)]

theorem pairCount_of_nodup (a b : String) (l : List String) (h : l.Nodup) (hab : a ≠ b) :
    pairCount a b l = if a ∈ l ∧ b ∈ l then 1 else 0 := by
  induction l with
  | nil => simp [pairCount]
  | cons k rest ih =>
      obtain ⟨hk, hrest⟩ := List.nodup_cons.mp h
      by_cases hka : k = a
      · have ha_not : a ∉ rest := hka ▸ hk
        have hz : pairCount a b rest = 0 := pairCount_eq_zero _ _ _ (Or.inl ha_not)
        have hkb : ¬ k = b := fun hkk => hab (hka ▸ hkk)
        have hba : ¬ b = a := fun hh => hab hh.symm
        simp only [pairCount, if_pos hka, if_neg hkb, hz, Nat.add_zero]
        rw [count_eq_ite_of_nodup b rest hrest]
        simp [List.mem_cons, hka, hba, ha_not]
      · by_cases hkb : k = b
        · have hb_not : b ∉ rest := hkb ▸ hk
          have hz : pairCount a b rest = 0 := pairCount_eq_zero _ _ _ (Or.inr hb_not)
          have hak : ¬ a = k := fun haa => hka haa.symm
          simp only [pairCount, if_neg hka, if_pos hkb, hz, Nat.add_zero]
          rw [count_eq_ite_of_nodup a rest hrest]
          simp [List.mem_cons, hkb, hab, hb_not]
        · have hak : ¬ a = k := fun haa => hka haa.symm
          have hbk : ¬ b = k := fun hbb => hkb hbb.symm
          simp only [pairCount, if_neg hka, if_neg hkb, ih hrest, List.mem_cons, Nat.zero_add]
          simp [hak, hbk]

/-- C5: the co-occurrence matrix of `updateChart` is symmetric; with
per-issue keyword lists free of duplicates (classification emits
deduplicated keyword lists) the cell `(a, b)`, `a ≠ b`, equals the exact
number of issues whose displayed keywords include both `a` and `b`; and
a pair that never co-occurs in any issue gets count zero — no edge. -/
theorem cooccurrence_exact (top : List String) (issues : List (List String)) (a b : String) :
    cooccurrence top issues a b = cooccurrence top issues b a ∧
    ((∀ kws ∈ issues, kws.Nodup) → a ≠ b →
      cooccurrence top issues a b =
        (issues.filter (fun kws =>
          decide (a ∈ kws.filter (fun kw => decide (kw ∈ top)) ∧
            b ∈ kws.filter (fun kw => decide (kw ∈ top))))).length) ∧
    ((∀ kws ∈ issues, ¬ (a ∈ kws ∧ b ∈ kws)) → cooccurrence top issues a b = 0) := by
  refine ⟨?_, ?_, ?_⟩
  · simp only [cooccurrence]
    induction issues with
    | nil => rfl
    | cons kws rest ih => simp [pairCount_comm, ih]
  · intro hnd hab
    induction issues with
    | nil => rfl
    | cons kws rest ih =>
        have hhead : (kws.filter (fun kw => decide (kw ∈ top))).Nodup :=
          (hnd kws (List.mem_cons_self kws rest)).filter _
        have ihr := ih (fun l hl => hnd l (List.mem_cons_of_mem kws hl))
        simp only [cooccurrence, List.map_cons, List.sum_cons] at ihr ⊢
        rw [pairCount_of_nodup a b _ hhead hab, List.filter_cons]
        simp only [decide_eq_true_eq]
        rw [ihr]
        by_cases hmem : a ∈ kws.filter (fun kw => decide (kw ∈ top)) ∧
            b ∈ kws.filter (fun kw => decide (kw ∈ top))
        · rw [if_pos hmem, if_pos hmem, List.length_cons]
          omega
        · rw [if_neg hmem, if_neg hmem]
          omega
  · intro hnone
    induction issues with
    | nil => rfl
    | cons kws rest ih =>
        have hhead : a ∉ kws.filter (fun kw => decide (kw ∈ top)) ∨
            b ∉ kws.filter (fun kw => decide (kw ∈ top)) := by
          rcases not_and_or.mp (hnone kws (List.mem_cons_self kws rest)) with h | h
          · exact Or.inl (fun hf => h (List.mem_of_mem_filter hf))
          · exact Or.inr (fun hf => h (List.mem_of_mem_filter hf))
        have ihr := ih (fun l hl => hnone l (List.mem_cons_of_mem kws hl))
        simp only [cooccurrence, List.map_cons, List.sum_cons] at ihr ⊢
        rw [pairCount_eq_zero a b _ hhead, ihr]

/-! ## Theorems: consolidator -/

theorem applyEdges_sameSet (edges : List (Nat × Nat)) (f : Nat → Nat) (x y : Nat) :
    sameSet (applyEdges edges f) x y ↔
      Relation.EqvGen (fun u v => f u = f v ∨ (u, v) ∈ edges) x y := by
  induction edges generalizing f with
  | nil =>
      have hequiv :
          Equivalence (fun u v : Nat => f u = f v ∨ (u, v) ∈ ([] : List (Nat × Nat))) := by
        refine ⟨fun u => Or.inl rfl, ?_, ?_⟩
        · intro u v h
          rcases h with h | h
          · exact Or.inl h.symm
          · cases h
        · intro u v w h1 h2
          rcases h1 with h1 | h1
          · rcases h2 with h2 | h2
            · exact Or.inl (h1.trans h2)
            · cases h2
          · cases h1
      rw [hequiv.eqvGen_iff]
      constructor
      · exact fun h => Or.inl h
      · intro h
        rcases h with h | h
        · exact h
        · cases h
  | cons e rest ih =>
      have h1 : applyEdges (e :: rest) f = applyEdges rest (ufUnion f e.1 e.2) := rfl
      rw [h1, ih]
      clear ih
      constructor
      · intro h
        induction h with
        | rel u v huv =>
            rcases huv with hsame | hmem
            · have hedge :
                  Relation.EqvGen (fun u v => f u = f v ∨ (u, v) ∈ e :: rest) e.1 e.2 :=
                Relation.EqvGen.rel _ _ (Or.inr (List.mem_cons_self e rest))
              unfold ufUnion at hsame
              by_cases hu : f u = f e.2 <;> by_cases hv : f v = f e.2
              · exact Relation.EqvGen.rel _ _ (Or.inl (hu.trans hv.symm))
              · rw [if_pos hu, if_neg hv] at hsame
                exact Relation.EqvGen.trans _ _ _
                  (Relation.EqvGen.trans _ _ _ (Relation.EqvGen.rel _ _ (Or.inl hu))
                    (Relation.EqvGen.symm _ _ hedge))
                  (Relation.EqvGen.rel _ _ (Or.inl hsame))
              · rw [if_neg hu, if_pos hv] at hsame
                exact Relation.EqvGen.trans _ _ _
                  (Relation.EqvGen.trans _ _ _ (Relation.EqvGen.rel _ _ (Or.inl hsame)) hedge)
                  (Relation.EqvGen.rel _ _ (Or.inl hv.symm))
              · rw [if_neg hu, if_neg hv] at hsame
                exact Relation.EqvGen.rel _ _ (Or.inl hsame)
            · exact Relation.EqvGen.rel _ _ (Or.inr (List.mem_cons_of_mem e hmem))
        | refl u => exact Relation.EqvGen.refl u
        | symm u v _ ihh => exact Relation.EqvGen.symm u v ihh
        | trans u v w _ _ ih1 ih2 => exact Relation.EqvGen.trans u v w ih1 ih2
      · intro h
        induction h with
        | rel u v huv =>
            rcases huv with hsame | hmem
            · refine Relation.EqvGen.rel _ _ (Or.inl ?_)
              unfold ufUnion
              rw [hsame]
            · rcases List.mem_cons.mp hmem with heq | hmem
              · have hu : u = e.1 := congrArg Prod.fst heq
                have hv : v = e.2 := congrArg Prod.snd heq
                subst hu
                subst hv
                refine Relation.EqvGen.rel _ _ (Or.inl ?_)
                show ufUnion f e.1 e.2 e.1 = ufUnion f e.1 e.2 e.2
                unfold ufUnion
                by_cases hab : f e.1 = f e.2
                · rw [if_pos hab, if_pos rfl]
                · rw [if_neg hab, if_pos rfl]
              · exact Relation.EqvGen.rel _ _ (Or.inr hmem)
        | refl u => exact Relation.EqvGen.refl u
        | symm u v _ ihh => exact Relation.EqvGen.symm u v ihh
        | trans u v w _ _ ih1 ih2 => exact Relation.EqvGen.trans u v w ih1 ih2

/-- C2: the consolidator's partition depends only on the set of
reference edges, not on the processing order — for any permutation of
the raw-record list, any two elements are clustered together in one run
exactly when they are in the other, and every cluster, viewed as a set
of arena element ids, is identical. -/
theorem consolidate_perm_invariant (recs recs2 : List RawRecordU) (h : recs.Perm recs2) :
    (∀ x y, sameSet (consolidate recs) x y ↔ sameSet (consolidate recs2) x y) ∧
    ∀ n x, component n (consolidate recs) x = component n (consolidate recs2) x := by
  have hperm := h.flatMap_right recordEdges
  have hmem : ∀ p : Nat × Nat, p ∈ recs.flatMap recordEdges ↔ p ∈ recs2.flatMap recordEdges :=
    fun p => hperm.mem_iff
  have hiff : ∀ x y, sameSet (consolidate recs) x y ↔ sameSet (consolidate recs2) x y := by
    intro x y
    unfold consolidate
    rw [applyEdges_sameSet, applyEdges_sameSet]
    constructor
    · exact Relation.EqvGen.mono (fun u v huv => huv.imp id fun hm => (hmem (u, v)).mp hm)
    · exact Relation.EqvGen.mono (fun u v huv => huv.imp id fun hm => (hmem (u, v)).mpr hm)
  refine ⟨hiff, ?_⟩
  intro n x
  unfold component
  apply Finset.filter_congr
  intro y _
  exact hiff x y

theorem consolidate_perm_invariant_witness :
    component 3 (consolidate exRecs) 0 = component 3 (consolidate exRecsPerm) 0 :=
  (consolidate_perm_invariant exRecs exRecsPerm (List.Perm.swap _ _ _)).2 3 0

/-! ## Theorems: classification engine -/

/-- C1: a ticket whose reference appears in `corrections` classifies as
the corrected category at confidence exactly 0.99, for every text and
every linguistic feature score — scoring is skipped entirely. -/
theorem classify_correction (rs : RuleSet) (context ticketRef : String) (tokens : List String)
    (featScore : Category → ℚ) (cat : Category)
    (h : alookup ticketRef rs.corrections = some cat) :
    (classify rs context ticketRef tokens featScore).category = cat ∧
    (classify rs context ticketRef tokens featScore).confidence = 99/100 := by
  simp [classify, h]

theorem classify_correction_witness :
    (classify exRuleSet ("jira") ("PROJ-9") [("outage")] (fun _ => 5)).category =
        Category.defect ∧
      (classify exRuleSet ("jira") ("PROJ-9") [("outage")] (fun _ => 5)).confidence = 99/100 :=
  classify_correction exRuleSet ("jira") ("PROJ-9") [("outage")] (fun _ => 5)
    Category.defect rfl

/-- C3: classification confidence always lies in `[0, 1]`, and for a
ticket not present in `corrections` it never exceeds 0.99. -/
theorem classify_confidence_bounds (rs : RuleSet) (context ticketRef : String)
    (tokens : List String) (featScore : Category → ℚ) :
    0 ≤ (classify rs context ticketRef tokens featScore).confidence ∧
    (classify rs context ticketRef tokens featScore).confidence ≤ 1 ∧
    (alookup ticketRef rs.corrections = none →
      (classify rs context ticketRef tokens featScore).confidence ≤ 99/100) := by
  rcases h : alookup ticketRef rs.corrections with _ | cat
  · simp only [classify, h]
    by_cases ht : tokens = []
    · rw [if_pos ht]
      refine ⟨by norm_num [lowConfidence], by norm_num [lowConfidence], fun _ => ?_⟩
      norm_num [lowConfidence]
    · rw [if_neg ht]
      refine ⟨?_, ?_, fun _ => ?_⟩
      · exact le_min (le_max_right _ _) (by norm_num)
      · exact le_trans (min_le_right _ _) (by norm_num)
      · exact min_le_right _ _
  · simp only [classify, h]
    exact ⟨by norm_num, by norm_num, fun hnone => by norm_num⟩

theorem classify_confidence_bounds_witness :
    (classify exRuleSet ("jira") ("CHAT-7") [("outage")] (fun _ => 0)).confidence ≤ 99/100 :=
  (classify_confidence_bounds exRuleSet ("jira") ("CHAT-7") [("outage")] (fun _ => 0)).2.2 rfl

/-- C7 counterexample: an empty-text ticket whose reference is in
`corrections` does NOT classify as the default "inquiry" — the
correction short-circuit of step 1 takes precedence even over the
empty-text default. -/
theorem classify_empty_corrected_counterexample :
    (classify exRuleSet ("jira") ("PROJ-9") [] (fun _ => 0)).category ≠ Category.inquiry := by
  decide

/-- C7 (amended): an empty-text ticket not present in `corrections`
classifies as the default category "inquiry" at the fixed low
confidence; `classify` is a total function, so no input aborts the
run. -/
theorem classify_empty_default (rs : RuleSet) (context ticketRef : String)
    (featScore : Category → ℚ) (h : alookup ticketRef rs.corrections = none) :
    classify rs context ticketRef [] featScore =
      ⟨Category.inquiry, lowConfidence, []⟩ := by
  simp [classify, h]

theorem classify_empty_default_witness :
    classify exRuleSet ("jira") ("CHAT-7") [] (fun _ => 0) =
      ⟨Category.inquiry, lowConfidence, []⟩ :=
  classify_empty_default exRuleSet ("jira") ("CHAT-7") (fun _ => 0) rfl

theorem foldl_max_init (w0 : ℚ) (ws : List ℚ) : w0 ≤ ws.foldl max w0 := by
  induction ws generalizing w0 with
  | nil => exact le_refl w0
  | cons a ws ih => exact le_trans (le_max_left w0 a) (ih (max w0 a))

theorem foldl_max_le (ws : List ℚ) (w0 v : ℚ) (hv : v ∈ ws) : v ≤ ws.foldl max w0 := by
  induction ws generalizing w0 with
  | nil => cases hv
  | cons a ws ih =>
      rcases List.mem_cons.mp hv with rfl | hv
      · exact le_trans (le_max_right w0 v) (foldl_max_init _ _)
      · exact ih (max w0 a) hv

theorem foldl_max_mem (ws : List ℚ) (w0 : ℚ) :
    ws.foldl max w0 = w0 ∨ ws.foldl max w0 ∈ ws := by
  induction ws generalizing w0 with
  | nil => exact Or.inl rfl
  | cons a ws ih =>
      rcases ih (max w0 a) with h | h
      · rcases le_total w0 a with hle | hle
        · rw [List.foldl_cons, h, max_eq_right hle]
          exact Or.inr (List.mem_cons_self a ws)
        · rw [List.foldl_cons, h, max_eq_left hle]
          exact Or.inl rfl
      · exact Or.inr (List.mem_cons_of_mem a h)

theorem mergedWeightFrom_some (kw : String) (layers : List LayerRule) :
    ∀ w : ℚ,
      mergedWeightFrom kw (some w) layers =
        some (((layers.filter (fun l => decide (kw ∈ l.keywords))).map LayerRule.weight).foldl
          max w) := by
  induction layers with
  | nil => intro w; rfl
  | cons l ls ih =>
      intro w
      by_cases hkw : kw ∈ l.keywords
      · simp only [mergedWeightFrom, if_pos hkw, List.filter_cons, decide_eq_true_eq, hkw,
          if_true, List.map_cons, List.foldl_cons]
        exact ih (max w l.weight)
      · simp only [mergedWeightFrom, if_neg hkw, List.filter_cons, decide_eq_true_eq, hkw,
          if_false]
        exact ih w

theorem mergedWeight_spec (kw : String) (layers : List LayerRule) :
    (∀ w, mergedWeight layers kw = some w →
      (∃ l ∈ layers, kw ∈ l.keywords ∧ l.weight = w) ∧
      ∀ l ∈ layers, kw ∈ l.keywords → l.weight ≤ w) ∧
    (mergedWeight layers kw = none → ∀ l ∈ layers, kw ∉ l.keywords) := by
  induction layers with
  | nil =>
      constructor
      · intro w hw
        simp [mergedWeight, mergedWeightFrom] at hw
      · intro _ l hl
        cases hl
  | cons l ls ih =>
      by_cases hkw : kw ∈ l.keywords
      · have heq : mergedWeight (l :: ls) kw =
            some (((ls.filter (fun x => decide (kw ∈ x.keywords))).map LayerRule.weight).foldl
              max l.weight) := by
          simp only [mergedWeight, mergedWeightFrom, if_pos hkw]
          exact mergedWeightFrom_some kw ls l.weight
        constructor
        · intro w hw
          rw [heq] at hw
          have hwval := Option.some.inj hw
          have hMem := foldl_max_mem
            ((ls.filter (fun x => decide (kw ∈ x.keywords))).map LayerRule.weight) l.weight
          constructor
          · rcases hMem with hM | hM
            · exact ⟨l, List.mem_cons_self l ls, hkw, by rw [← hwval, hM]⟩
            · obtain ⟨l2, hl2, hwl2⟩ := List.mem_map.mp hM
              obtain ⟨hl2m, hl2p⟩ := List.mem_filter.mp hl2
              exact ⟨l2, List.mem_cons_of_mem l hl2m, by simpa using hl2p,
                by rw [hwl2, ← hwval]⟩
          · intro l2 hl2 hkw2
            rcases List.mem_cons.mp hl2 with rfl | hl2
            · rw [← hwval]
              exact foldl_max_init _ _
            · rw [← hwval]
              refine foldl_max_le _ _ _ (List.mem_map.mpr ⟨l2, ?_, rfl⟩)
              exact List.mem_filter.mpr ⟨hl2, by simpa using hkw2⟩
        · intro hnone
          rw [heq] at hnone
          cases hnone
      · have heq : mergedWeight (l :: ls) kw = mergedWeight ls kw := by
          simp only [mergedWeight, mergedWeightFrom, if_neg hkw]
        constructor
        · intro w hw
          rw [heq] at hw
          obtain ⟨⟨l2, hl2, h1, h2⟩, hbnd⟩ := ih.1 w hw
          refine ⟨⟨l2, List.mem_cons_of_mem l hl2, h1, h2⟩, ?_⟩
          intro l3 hl3 hkw3
          rcases List.mem_cons.mp hl3 with rfl | hl3
          · exact absurd hkw3 hkw
          · exact hbnd l3 hl3 hkw3
        · intro hn l3 hl3
          rcases List.mem_cons.mp hl3 with rfl | hl3
          · exact hkw
          · exact ih.2 (heq ▸ hn) l3 hl3

/-- C4: the effective weight of a keyword is the maximum weight assigned
to it across all applicable layers (base, matching context, global
overrides): whenever the priority-ordered overlay query returns a
weight, that weight is attained by some defining layer and bounds every
defining layer; it returns nothing only when no layer defines the
keyword.  The layers themselves are never mutated — `mergedWeight` is a
pure query. -/
theorem effectiveWeight_is_max (rs : RuleSet) (context : String) (cat : Category)
    (kw : String) :
    (∀ w, mergedWeight (applicableLayers rs context cat) kw = some w →
      (∃ l ∈ applicableLayers rs context cat, kw ∈ l.keywords ∧ l.weight = w) ∧
      ∀ l ∈ applicableLayers rs context cat, kw ∈ l.keywords → l.weight ≤ w) ∧
    (mergedWeight (applicableLayers rs context cat) kw = none →
      ∀ l ∈ applicableLayers rs context cat, kw ∉ l.keywords) :=
  mergedWeight_spec kw (applicableLayers rs context cat)

theorem effectiveWeight_is_max_witness :
    (∃ l ∈ applicableLayers exRuleSet2 ("slack") Category.outage, ("sev0") ∈ l.keywords ∧
      l.weight = 3) ∧
    ∀ l ∈ applicableLayers exRuleSet2 ("slack") Category.outage,
      ("sev0") ∈ l.keywords → l.weight ≤ 3 :=
  (effectiveWeight_is_max exRuleSet2 ("slack") Category.outage ("sev0")).1 3 (by decide)

theorem cooccurrence_exact_witness :
    cooccurrence [("x"), ("y")] [[("x"), ("y")], [("x")]] ("x") ("y") =
      (([[("x"), ("y")], [("x")]] : List (List String)).filter (fun kws =>
        decide (("x") ∈ kws.filter (fun kw => decide (kw ∈ [("x"), ("y")])) ∧
          ("y") ∈ kws.filter (fun kw => decide (kw ∈ [("x"), ("y")]))))).length :=
  (cooccurrence_exact [("x"), ("y")] [[("x"), ("y")], [("x")]] ("x") ("y")).2.1
    (by decide) (by decide)

/-! ## Theorems: identity resolver -/

theorem mergeAt_emails (ns : List PersonNode) (k : Nat) (i : Identity) :
    (mergeAt ns k i).filterMap PersonNode.email = ns.filterMap PersonNode.email := by
  induction ns generalizing k with
  | nil => rfl
  | cons n ns ih =>
      cases k with
      | zero =>
          have hone : (addMember n i).email = n.email := rfl
          simp [mergeAt, List.filterMap_cons, hone]
      | succ k => simp [mergeAt, List.filterMap_cons, ih k]

theorem resolveStep_emails (θ : ℚ) (ns : List PersonNode) (i : Identity) :
    (resolveStep θ ns i).filterMap PersonNode.email = ns.filterMap PersonNode.email := by
  unfold resolveStep
  cases hbm : bestMatchAux i.name ns 0 none with
  | none => simp [List.filterMap_append]
  | some p =>
      obtain ⟨bi, bs⟩ := p
      by_cases hθ : θ ≤ bs
      · simp [hθ, mergeAt_emails]
      · simp [hθ, List.filterMap_append]

theorem foldl_resolveStep_emails (θ : ℚ) (l : List Identity) :
    ∀ ns : List PersonNode,
      (l.foldl (resolveStep θ) ns).filterMap PersonNode.email =
        ns.filterMap PersonNode.email := by
  induction l with
  | nil => intro ns; rfl
  | cons i l ih =>
      intro ns
      rw [List.foldl_cons, ih, resolveStep_emails]

theorem emailNodes_emails (sorted : List Identity) (emails : List String) :
    (emails.map (mkEmailNode sorted)).filterMap PersonNode.email = emails := by
  induction emails with
  | nil => rfl
  | cons e rest ih => simp [List.filterMap_cons, mkEmailNode, ih]

/-- C6 counterexample: identity resolution is not a fixed point of
itself.  On `exIdentities` (three email-less identities at the default
threshold 0.85) the resolver forms two PersonNodes, but re-running it on
its own output merges them into one: the third identity's longer name
becomes the first node's label and that new label is similar enough to
the second node's label. -/
theorem resolve_not_fixed_point :
    (resolve exTheta exIdentities).length = 2 ∧
    (resolve exTheta ((resolve exTheta exIdentities).map nodeIdentity)).length = 1 := by
  decide

/-- C6 (amended): the email stage of re-resolution is a fixed point —
the resolver's output never carries a duplicate email, so no two output
PersonNodes can be merged by the email-grouping stage; only the
name-similarity stage can merge further, when a node's label changed
after later members joined. -/
theorem resolve_email_nodup (θ : ℚ) (ids : List Identity) :
    ((resolve θ ids).filterMap PersonNode.email).Nodup := by
  simp only [resolve]
  rw [foldl_resolveStep_emails, emailNodes_emails]
  exact List.nodup_dedup _

end Mimi
